import Mathlib

/-!
Verification of the txtar archive library (single source file `src/lib.rs`).

Text and byte strings are modelled as `List Char`.  The library treats its
input as a byte sequence passed through unchanged (the only byte-level
operations are searches for ASCII marker substrings and appending an ASCII
newline), and `String::from_utf8_lossy` is the identity on the valid-UTF-8
content considered here, so a character list is a faithful shallow embedding
of both the `&str` and the `&[u8]` values of the source.

Rust functions that can panic are embedded as `Option`-valued functions,
`none` meaning a panic.
-/

namespace Txtar

/-- Strings and byte buffers of the source, as lists of characters. -/
abbrev Str := List Char

/-- Convenience conversion from Lean string literals. -/
def str (s : String) : Str := s.data

/-- Source constant `MARKER = "-- "`. -/
def MARKER : Str := ['-', '-', ' ']

/-- Source constant `MARKER_END = " --"`. -/
def MARKER_END : Str := [' ', '-', '-']

/-- Source constant `NEWLINE_MARKER = "\n-- "`. -/
def NEWLINE_MARKER : Str := ['\n', '-', '-', ' ']

/-- Embedding of `struct File` of `lib.rs`: a name and the stored data. -/
structure File where
  name : Str
  data : Str
deriving DecidableEq, Repr

/-- Embedding of `struct Archive` of `lib.rs`: a comment and ordered files. -/
structure Archive where
  comment : Str
  files : List File
deriving DecidableEq, Repr

/-- Embedding of `fn fix_newline`: if the buffer is non-empty and does not
end with a newline byte, push one newline byte. -/
def fix_newline (s : Str) : Str :=
  if !s.isEmpty && !(s.getLast? == some '\n') then s ++ ['\n'] else s

/-- Embedding of `File::new`: the name is stored as given, the data is
passed through `fix_newline`. -/
def File.new (name data : Str) : File :=
  ⟨name, fix_newline data⟩

/-- Embedding of `Archive::new`: the comment is passed through
`fix_newline`, the file list is stored as given. -/
def Archive.new (comment : Str) (files : List File) : Archive :=
  ⟨fix_newline comment, files⟩

/-- Embedding of Rust `str::split_once('\n')`: split at the first newline,
returning the parts before and after it, or `none` when there is none. -/
def splitOnceNL : Str → Option (Str × Str)
  | [] => none
  | c :: cs =>
    if c = '\n' then some ([], cs)
    else (splitOnceNL cs).map fun p => (c :: p.1, p.2)

/-- Embedding of `s.find(NEWLINE_MARKER)` combined with the subsequent
`split_at`: locate the first occurrence of `"\n-- "` and return the part
strictly before it together with the part starting at the occurrence.
(The source computes a byte offset and splits there; returning the two
parts directly is the same split without index arithmetic.) -/
def findNlMarker : Str → Option (Str × Str)
  | [] => none
  | c :: cs =>
    if NEWLINE_MARKER.isPrefixOf (c :: cs) then some ([], c :: cs)
    else (findNlMarker cs).map fun p => (c :: p.1, p.2)

/-- Embedding of `name.trim_end_matches('\r')`: remove every trailing
carriage-return character (Rust's `trim_end_matches` repeats while the
pattern keeps matching). -/
def trimEndCR (s : Str) : Str :=
  (s.reverse.dropWhile (fun c => c == '\r')).reverse

/-- Embedding of Rust `str::strip_prefix` (here named `chopFront`). -/
def chopFront (pat s : Str) : Option Str :=
  if pat.isPrefixOf s then some (s.drop pat.length) else none

/-- Embedding of Rust `str::strip_suffix` (here named `chopBack`). -/
def chopBack (pat s : Str) : Option Str :=
  if pat.isSuffixOf s then some (s.take (s.length - pat.length)) else none

/-- Embedding of the tail of `split_file_markers`: trim trailing `'\r'`
characters from the candidate delimiter line, then
`strip_prefix("-- ")` and `strip_suffix(" --")` with a final `unwrap()`;
`none` models the panic of that `unwrap()` when either strip fails. -/
def finishMarkerLine (pre line suf : Str) : Option (Str × Str × Str) :=
  match (chopFront MARKER (trimEndCR line)).bind (chopBack MARKER_END) with
  | none => none
  | some n => some (pre, n, suf)

/-- Embedding of the head of `split_file_markers`: the `(prefix, rest)`
pair.  `some` is the case where a delimiter opening was located (either the
input starts with `"-- "`, or `"\n-- "` occurs and the input is split just
after that newline); `none` is the early `return (s, "", "")` of the
`find == None` case. -/
def splitPre (s : Str) : Option (Str × Str) :=
  if MARKER.isPrefixOf s then some ([], s)
  else
    match findNlMarker s with
    | none => none
    | some (p, m) => some (p ++ ['\n'], m.drop 1)

/-- Embedding of `fn split_file_markers`.  Returns `some (prefix, name,
remainder)` when the Rust function returns that triple, and `none` when the
Rust function panics (the `unwrap()` on a delimiter line that does not have
the `"-- "` and `" --"` shape after trimming). -/
def split_file_markers (s : Str) : Option (Str × Str × Str) :=
  match splitPre s with
  | none => some (s, [], [])
  | some (pre, rest) =>
    match splitOnceNL rest with
    | none =>
      if MARKER_END.isSuffixOf rest then finishMarkerLine pre rest []
      else some (s, [], [])
    | some (line, suf) => finishMarkerLine pre line suf

/-- Inversion for `splitOnceNL`: a successful split decomposes the input. -/
theorem splitOnceNL_eq_some :
    ∀ {s a b : Str}, splitOnceNL s = some (a, b) → s = a ++ '\n' :: b := by
  intro s
  induction s with
  | nil => intro a b h; simp [splitOnceNL] at h
  | cons c cs ih =>
    intro a b h
    by_cases hc : c = '\n'
    · simp [splitOnceNL, hc] at h
      simp [hc, h.1.symm, h.2.symm]
    · simp only [splitOnceNL, if_neg hc, Option.map_eq_some'] at h
      obtain ⟨⟨a', b'⟩, hp, he⟩ := h
      simp only [Prod.mk.injEq] at he
      obtain ⟨rfl, rfl⟩ := he
      rw [ih hp, List.cons_append]

/-- Inversion for `findNlMarker`: a successful search decomposes the input
and the second part starts with the newline marker. -/
theorem findNlMarker_eq_some :
    ∀ {s p m : Str}, findNlMarker s = some (p, m) →
      s = p ++ m ∧ NEWLINE_MARKER.isPrefixOf m = true := by
  intro s
  induction s with
  | nil => intro p m h; simp [findNlMarker] at h
  | cons c cs ih =>
    intro p m h
    by_cases hc : NEWLINE_MARKER.isPrefixOf (c :: cs) = true
    · simp [findNlMarker, hc] at h
      exact ⟨by simp [← h.1, ← h.2], by rw [← h.2]; exact hc⟩
    · simp only [findNlMarker, if_neg hc, Option.map_eq_some'] at h
      obtain ⟨⟨p', m'⟩, hp, he⟩ := h
      simp only [Prod.mk.injEq] at he
      obtain ⟨rfl, rfl⟩ := he
      obtain ⟨h1, h2⟩ := ih hp
      exact ⟨by rw [h1, List.cons_append], h2⟩

/-- Facts about a successful `splitPre`: the rest is no longer than the
input, and the input is non-empty. -/
theorem splitPre_facts :
    ∀ {s pre rest : Str}, splitPre s = some (pre, rest) →
      rest.length ≤ s.length ∧ s ≠ [] := by
  intro s pre rest h
  by_cases hm : MARKER.isPrefixOf s = true
  · simp [splitPre, hm] at h
    constructor
    · simp [← h.2]
    · intro hs; rw [hs] at hm; simp [MARKER, List.isPrefixOf] at hm
  · simp only [splitPre, if_neg hm] at h
    cases hf : findNlMarker s with
    | none => rw [hf] at h; simp at h
    | some pm =>
      obtain ⟨p, m⟩ := pm
      rw [hf] at h
      obtain ⟨hs, hpm⟩ := findNlMarker_eq_some hf
      have hm0 : m ≠ [] := by
        intro h0; rw [h0] at hpm; simp [NEWLINE_MARKER, List.isPrefixOf] at hpm
      simp at h
      constructor
      · rw [← h.2, hs]
        cases m with
        | nil => exact absurd rfl hm0
        | cons x xs => simp [List.length_append]; omega
      · intro h0; rw [h0] at hs
        have := congrArg List.length hs
        simp [List.length_append] at this
        have hm2 : m.length = 0 := by omega
        exact hm0 (List.eq_nil_of_length_eq_zero hm2)

/-- Shape of a successful `finishMarkerLine`: it returns the given prefix
and suffix unchanged. -/
theorem finishMarkerLine_shape :
    ∀ {pre line suf d n r : Str},
      finishMarkerLine pre line suf = some (d, n, r) → d = pre ∧ r = suf := by
  intro pre line suf d n r h
  unfold finishMarkerLine at h
  cases hc : (chopFront MARKER (trimEndCR line)).bind (chopBack MARKER_END) with
  | none => rw [hc] at h; simp at h
  | some nm => rw [hc] at h; simp at h; exact ⟨h.1.symm, h.2.2.symm⟩

/-- Progress property of the splitter: whenever it succeeds with a
non-empty captured name, the remainder is strictly shorter than the
input.  This is what makes the builder's loop terminate. -/
theorem split_shrink :
    ∀ {s d n r : Str}, split_file_markers s = some (d, n, r) → n ≠ [] →
      r.length < s.length := by
  intro s d n r h hn
  unfold split_file_markers at h
  cases hp : splitPre s with
  | none =>
    rw [hp] at h; simp at h
    exact absurd h.2.1 hn
  | some pr =>
    obtain ⟨pre, rest⟩ := pr
    rw [hp] at h
    dsimp only at h
    obtain ⟨hle, hs0⟩ := splitPre_facts hp
    have hslen : 0 < s.length := List.length_pos.mpr hs0
    cases ho : splitOnceNL rest with
    | none =>
      rw [ho] at h
      by_cases hend : MARKER_END.isSuffixOf rest = true
      · rw [if_pos hend] at h
        simp only at h
        obtain ⟨_, hr⟩ := finishMarkerLine_shape h
        rw [hr]; simpa using hslen
      · rw [if_neg hend] at h
        simp at h
        exact absurd h.2.1 hn
    | some ls =>
      obtain ⟨line, suf⟩ := ls
      rw [ho] at h
      simp only at h
      obtain ⟨_, hr⟩ := finishMarkerLine_shape h
      have := splitOnceNL_eq_some ho
      have hlen : rest.length = line.length + suf.length + 1 := by
        rw [this]; simp [List.length_append]; omega
      rw [hr]
      omega

/-- Fuel-indexed version of the builder loop of `impl From<&str> for
Archive`.  The fuel only serves to make the function structurally
recursive; `buildFilesF_congr` and `buildFiles_eq` below show that with
the fuel used by `buildFiles` the recursion never exhausts it, so
`buildFiles` satisfies exactly the loop's recurrence. -/
def buildFilesF : Nat → Str → Str → Option (List File)
  | 0, _, _ => none
  | fuel + 1, name, s =>
    if name.isEmpty then some []
    else
      match split_file_markers s with
      | none => none
      | some (d, m, r) =>
        if m.isEmpty then some [File.new name d]
        else (buildFilesF fuel m r).map (File.new name d :: ·)

/-- Embedding of the `while !name.is_empty()` loop of `impl From<&str> for
Archive`, started at a given captured name and remainder. -/
def buildFiles (name s : Str) : Option (List File) :=
  buildFilesF (s.length + 1) name s

/-- The fuel of `buildFilesF` is irrelevant as long as it exceeds the
length of the remaining input. -/
theorem buildFilesF_congr :
    ∀ (f1 f2 : Nat) (n s : Str), s.length < f1 → s.length < f2 →
      buildFilesF f1 n s = buildFilesF f2 n s := by
  intro f1
  induction f1 with
  | zero => intro f2 n s h1 _; omega
  | succ f1' ih =>
    intro f2 n s h1 h2
    cases f2 with
    | zero => omega
    | succ f2' =>
      simp only [buildFilesF]
      by_cases hn : n.isEmpty
      · simp [hn]
      · simp only [hn, Bool.false_eq_true, if_false]
        cases hs : split_file_markers s with
        | none => rfl
        | some t =>
          obtain ⟨d, m, r⟩ := t
          by_cases hm : m.isEmpty
          · simp [hm]
          · have hmne : m ≠ [] := by
              intro h0; rw [h0] at hm; simp at hm
            have hshrink := split_shrink hs hmne
            simp only [hm, Bool.false_eq_true, if_false]
            rw [ih f2' m r (by omega) (by omega)]

/-- The recurrence satisfied by `buildFiles`: this is exactly the loop of
`impl From<&str> for Archive` (push `File::new(name, data)`, stop when the
next captured name is empty, propagate a panic of the splitter). -/
theorem buildFiles_eq (n s : Str) :
    buildFiles n s =
      if n.isEmpty then some []
      else
        match split_file_markers s with
        | none => none
        | some (d, m, r) =>
          if m.isEmpty then some [File.new n d]
          else (buildFiles m r).map (File.new n d :: ·) := by
  show buildFilesF (s.length + 1) n s = _
  simp only [buildFilesF]
  by_cases hn : n.isEmpty
  · simp [hn]
  · simp only [hn, Bool.false_eq_true, if_false]
    cases hs : split_file_markers s with
    | none => rfl
    | some t =>
      obtain ⟨d, m, r⟩ := t
      by_cases hm : m.isEmpty
      · simp [hm]
      · have hmne : m ≠ [] := by
          intro h0; rw [h0] at hm; simp at hm
        have hshrink := split_shrink hs hmne
        simp only [hm, Bool.false_eq_true, if_false]
        rw [buildFilesF_congr s.length (r.length + 1) m r (by omega) (by omega)]
        rfl

/-- Embedding of `impl From<&'a str> for Archive<'a>`: split off the
comment, then run the builder loop; `none` models a panic of the splitter
propagating out of the loop. -/
def Archive.fromStr (s : Str) : Option Archive :=
  match split_file_markers s with
  | none => none
  | some (c, n, rest) =>
    match buildFiles n rest with
    | none => none
    | some files => some (Archive.new c files)

/-- The delimiter line written for a file by `Display for Archive`:
`"-- {name} --\n"`. -/
def fileHeader (n : Str) : Str := MARKER ++ n ++ MARKER_END ++ ['\n']

/-- The character stream produced for the file list by `Display for
Archive` (with `from_utf8_lossy` the identity on the valid content
modelled here). -/
def renderFiles : List File → Str
  | [] => []
  | f :: fs => fileHeader f.name ++ (f.data ++ renderFiles fs)

/-- Embedding of `Display for Archive`: the comment, then for each file a
delimiter line followed by its data. -/
def Archive.render (a : Archive) : Str := a.comment ++ renderFiles a.files

/-- The byte stream `Archive::to_writer` produces for the file list: for
each file it writes the raw name bytes and then the data bytes (the source
writes no delimiter markers and no newline around the name). -/
def writerFiles : List File → Str
  | [] => []
  | f :: fs => f.name ++ (f.data ++ writerFiles fs)

/-- Embedding of `Archive::to_writer` as the full byte stream it writes to
the sink when every write succeeds: the comment bytes, then for each file
its name bytes and its data bytes. -/
def Archive.writerBytes (a : Archive) : Str := a.comment ++ writerFiles a.files

/-- C4: every text segment stored at construction time (the comment via
`Archive::new`, a file's data via `File::new`) is normalized by
`fix_newline`: an empty segment stays empty, a segment already ending in a
newline is unchanged, and otherwise exactly one newline is appended with no
other character altered. -/
theorem claim_C4 (s n : Str) (fs : List File) :
    (s = [] → fix_newline s = s) ∧
    (s.getLast? = some '\n' → fix_newline s = s) ∧
    (s ≠ [] → s.getLast? ≠ some '\n' → fix_newline s = s ++ ['\n']) ∧
    (File.new n s).data = fix_newline s ∧
    (Archive.new s fs).comment = fix_newline s := by
  refine ⟨?_, ?_, ?_, rfl, rfl⟩
  · intro h; simp [fix_newline, h]
  · intro h; simp [fix_newline, h]
  · intro h1 h2
    have hne : s.isEmpty = false := by
      cases s with
      | nil => exact absurd rfl h1
      | cons x xs => rfl
    have hl : (s.getLast? == some '\n') = false := by
      exact beq_eq_false_iff_ne.mpr h2
    simp [fix_newline, hne, hl]

/-- Witness for C4 at concrete segments. -/
theorem claim_C4_witness :
    fix_newline [] = [] ∧
    fix_newline (str "a\n") = str "a\n" ∧
    fix_newline (str "ab") = str "ab" ++ ['\n'] := by
  refine ⟨(claim_C4 [] [] []).1 rfl, ?_, ?_⟩
  · exact (claim_C4 (str "a\n") [] []).2.1 (by decide)
  · exact (claim_C4 (str "ab") [] []).2.2.1 (by decide) (by decide)

/-- C1: FALSIFIED by the code.  The claim says the splitter always returns
normally and degrades gracefully on a delimiter opening that is not
properly terminated; but on input `"-- x\ny"` (an opening whose line has no
`" --"` terminator, followed by a newline) the source's
`strip_suffix(" --").unwrap()` panics (and its own
`debug_assert!(name.ends_with(MARKER_END))` fails).  The same panic
propagates out of `From<&str>` on `"a\n-- x\ny"`. -/
theorem claim_C1 :
    split_file_markers (str "-- x\ny") = none ∧
    Archive.fromStr (str "a\n-- x\ny") = none := by
  constructor <;> rfl

/-- C2: FALSIFIED by the code.  `Archive::to_writer` writes the raw name
bytes with no `"-- "`/`" --"` markers and no newline, so its byte stream
is not the claimed delimiter-line form and disagrees with the `Display`
rendering even on all-ASCII content. -/
theorem claim_C2 :
    (Archive.new [] [File.new (str "f") (str "d")]).writerBytes = str "fd\n" ∧
    (Archive.new [] [File.new (str "f") (str "d")]).render = str "-- f --\nd\n" ∧
    (Archive.new [] [File.new (str "f") (str "d")]).writerBytes ≠
      (Archive.new [] [File.new (str "f") (str "d")]).render := by
  exact ⟨rfl, rfl, by decide⟩

/-- C8: whenever the splitter succeeds with a non-empty captured name, the
remainder it returns is strictly shorter than its input, so the builder
loop of `From<&str>` makes strictly decreasing progress and parsing
terminates on every input. -/
theorem claim_C8 (s d n r : Str) :
    split_file_markers s = some (d, n, r) → n ≠ [] → r.length < s.length :=
  fun h hn => split_shrink h hn

/-- Witness for C8 at a concrete input. -/
theorem claim_C8_witness :
    split_file_markers (str "-- a --\nxyz") = some ([], str "a", str "xyz") ∧
    (str "xyz").length < (str "-- a --\nxyz").length := by
  refine ⟨by decide, ?_⟩
  exact claim_C8 (str "-- a --\nxyz") [] (str "a") (str "xyz") (by decide) (by decide)

/-- A list is a Boolean prefix of itself followed by anything. -/
theorem isPre_self_app (p x : Str) : p.isPrefixOf (p ++ x) = true := by
  simp

/-- Computation of `splitOnceNL` at the first newline of the input. -/
theorem splitOnceNL_app {A : Str} (R : Str) (h : '\n' ∉ A) :
    splitOnceNL (A ++ '\n' :: R) = some (A, R) := by
  induction A with
  | nil => simp [splitOnceNL]
  | cons c A' ih =>
    have hc : ¬c = '\n' := fun hh => h (by rw [hh]; exact List.mem_cons_self _ _)
    have hA : '\n' ∉ A' := fun hm => h (List.mem_cons_of_mem c hm)
    simp [splitOnceNL, hc, ih hA]

/-- `splitOnceNL` finds nothing in a newline-free string. -/
theorem splitOnceNL_none {A : Str} (h : '\n' ∉ A) : splitOnceNL A = none := by
  induction A with
  | nil => rfl
  | cons c A' ih =>
    have hc : ¬c = '\n' := fun hh => h (by rw [hh]; exact List.mem_cons_self _ _)
    have hA : '\n' ∉ A' := fun hm => h (List.mem_cons_of_mem c hm)
    simp [splitOnceNL, hc, ih hA]

/-- Dropping leading carriage returns skips a replicate block of them. -/
theorem dropWhile_replicate_cr (k : Nat) (l : List Char) :
    List.dropWhile (fun c => c == '\r') (List.replicate k '\r' ++ l) =
      List.dropWhile (fun c => c == '\r') l := by
  induction k with
  | zero => rfl
  | succ k ih => simp [List.replicate_succ, List.dropWhile]

/-- Trimming trailing carriage returns from a string that ends in a dash
followed by `k` carriage returns removes exactly those carriage returns. -/
theorem trimEndCR_dash (B : Str) (k : Nat) :
    trimEndCR ((B ++ ['-']) ++ List.replicate k '\r') = B ++ ['-'] := by
  unfold trimEndCR
  rw [List.reverse_append, List.reverse_append, List.reverse_replicate]
  rw [show (['-'] : Str).reverse = ['-'] from rfl]
  rw [dropWhile_replicate_cr]
  simp [List.dropWhile]

/-- Computation of `chopFront` when the pattern is present. -/
theorem chopFront_app (p x : Str) : chopFront p (p ++ x) = some x := by
  simp [chopFront, List.drop_left]

/-- Computation of `chopBack` when the pattern is present. -/
theorem chopBack_app (p x : Str) : chopBack p (x ++ p) = some x := by
  have hlen : (x ++ p).length - p.length = x.length := by
    simp [List.length_append]
  simp only [chopBack, List.isSuffixOf_iff_suffix, List.suffix_append, if_pos, hlen,
    List.take_left]

/-- Computation of `finishMarkerLine` on a well-formed delimiter line with
`k` trailing carriage returns. -/
theorem finishMarkerLine_header (pre suf n : Str) (k : Nat) :
    finishMarkerLine pre (MARKER ++ (n ++ (MARKER_END ++ List.replicate k '\r'))) suf =
      some (pre, n, suf) := by
  have h1 : MARKER ++ (n ++ (MARKER_END ++ List.replicate k '\r')) =
      ((MARKER ++ (n ++ [' ', '-'])) ++ ['-']) ++ List.replicate k '\r' := by
    simp [MARKER_END, List.append_assoc]
  have h2 : (MARKER ++ (n ++ [' ', '-'])) ++ ['-'] = MARKER ++ (n ++ MARKER_END) := by
    simp [MARKER_END, List.append_assoc]
  rw [finishMarkerLine, h1, trimEndCR_dash, h2, chopFront_app]
  rw [show Option.bind (some (n ++ MARKER_END)) (chopBack MARKER_END) =
        chopBack MARKER_END (n ++ MARKER_END) from rfl]
  rw [chopBack_app]

/-- C7 (amended): the splitter trims ALL trailing carriage returns from the
candidate delimiter line before stripping the `" --"` suffix, so a
delimiter line terminated by any positive number of carriage returns and a
newline is recognized with the same captured name and remainder as the
LF-only equivalent; but a delimiter line ending in a carriage return
immediately before end-of-input is NOT recognized (the suffix test runs
before any trimming there), and the whole input degrades to a prefix-only
result. -/
theorem claim_C7 (n R : Str) (k : Nat) (h : '\n' ∉ n) :
    split_file_markers
        (MARKER ++ (n ++ (MARKER_END ++ (List.replicate k '\r' ++ '\n' :: R)))) =
      some ([], n, R) ∧
    split_file_markers (MARKER ++ (n ++ (MARKER_END ++ ['\r']))) =
      some (MARKER ++ (n ++ (MARKER_END ++ ['\r'])), [], []) := by
  constructor
  · have hA : '\n' ∉ MARKER ++ (n ++ (MARKER_END ++ List.replicate k '\r')) := by
      intro hm
      rcases List.mem_append.mp hm with h1 | hm1
      · exact absurd h1 (by decide)
      rcases List.mem_append.mp hm1 with h2 | hm2
      · exact h h2
      rcases List.mem_append.mp hm2 with h3 | h4
      · exact absurd h3 (by decide)
      · rw [List.mem_replicate] at h4; exact absurd h4.2 (by decide)
    have hshape : MARKER ++ (n ++ (MARKER_END ++ (List.replicate k '\r' ++ '\n' :: R))) =
        (MARKER ++ (n ++ (MARKER_END ++ List.replicate k '\r'))) ++ '\n' :: R := by
      simp [List.append_assoc]
    rw [split_file_markers, splitPre, hshape]
    rw [if_pos (by rw [← List.append_assoc]; exact isPre_self_app MARKER _)]
    dsimp only
    rw [splitOnceNL_app R hA]
    exact finishMarkerLine_header [] R n k
  · have hA : '\n' ∉ MARKER ++ (n ++ (MARKER_END ++ ['\r'])) := by
      intro hm
      rcases List.mem_append.mp hm with h1 | hm1
      · exact absurd h1 (by decide)
      rcases List.mem_append.mp hm1 with h2 | hm2
      · exact h h2
      rcases List.mem_append.mp hm2 with h3 | h4
      · exact absurd h3 (by decide)
      · exact absurd h4 (by decide)
    have hsuf : MARKER_END.isSuffixOf (MARKER ++ (n ++ (MARKER_END ++ ['\r']))) = false := by
      have hshape : MARKER ++ (n ++ (MARKER_END ++ ['\r'])) =
          (MARKER ++ (n ++ MARKER_END)) ++ ['\r'] := by
        simp [List.append_assoc]
      rw [hshape]
      show (MARKER_END.reverse.isPrefixOf ((MARKER ++ (n ++ MARKER_END)) ++ ['\r']).reverse) = false
      rw [List.reverse_append]
      rfl
    rw [split_file_markers, splitPre]
    rw [if_pos (isPre_self_app MARKER _)]
    dsimp only
    rw [splitOnceNL_none hA, hsuf]
    rfl

/-- Witness for C7 at a concrete delimiter line. -/
theorem claim_C7_witness :
    split_file_markers (str "-- a --\r\nrest") = some ([], str "a", str "rest") ∧
    split_file_markers (str "-- a --\r") = some (str "-- a --\r", [], []) := by
  have h := claim_C7 (str "a") (str "rest") 1 (by decide)
  constructor
  · have h1 := h.1
    norm_num [MARKER, MARKER_END, str, List.replicate] at h1 ⊢
    exact h1
  · have h2 := h.2
    norm_num [MARKER, MARKER_END, str] at h2 ⊢
    exact h2

/-- C7 counterexample: as stated the claim is false.  A delimiter line
followed by a carriage return at end-of-input is NOT recognized (first
conjunct; the LF-less equivalent without the carriage return IS recognized,
second conjunct), and more than one trailing carriage return is trimmed,
so a line the claimed single-trim rule would reject is recognized (third
conjunct). -/
theorem claim_C7_counterexample :
    split_file_markers (str "-- a --\r") = some (str "-- a --\r", [], []) ∧
    split_file_markers (str "-- a --") = some ([], str "a", []) ∧
    split_file_markers (str "-- a --\r\r\nX") = some ([], str "a", str "X") := by
  exact ⟨rfl, rfl, rfl⟩

/-- A Boolean prefix of a concatenation that fits inside the first part is
a prefix of the first part. -/
theorem isPre_of_app {p a b : Str} (h : p.isPrefixOf (a ++ b) = true)
    (hl : p.length ≤ a.length) : p.isPrefixOf a = true := by
  rw [List.isPrefixOf_iff_prefix] at h ⊢
  exact List.prefix_of_prefix_length_le h (List.prefix_append a b) hl

/-- If `"-- "` is not a prefix of a newline-terminated string, it is not a
prefix of that string followed by anything, either. -/
theorem noMarkerPre_app (Q T : Str) (h : MARKER.isPrefixOf (Q ++ ['\n']) = false) :
    MARKER.isPrefixOf ((Q ++ ['\n']) ++ T) = false := by
  match Q with
  | [] => simp [MARKER, List.isPrefixOf]
  | [q] => simp [MARKER, List.isPrefixOf]
  | q1 :: q2 :: Q' =>
    by_contra hc
    rw [Bool.not_eq_false] at hc
    have h2 := isPre_of_app hc (by simp [MARKER])
    rw [h] at h2
    simp at h2

/-- Inversion of `findNlMarker` returning `none` on a cons cell. -/
theorem findNl_cons_inv {c : Char} {t : Str} (h : findNlMarker (c :: t) = none) :
    NEWLINE_MARKER.isPrefixOf (c :: t) = false ∧ findNlMarker t = none := by
  by_cases hc : NEWLINE_MARKER.isPrefixOf (c :: t) = true
  · simp [findNlMarker, hc] at h
  · refine ⟨?_, ?_⟩
    · cases hb : NEWLINE_MARKER.isPrefixOf (c :: t) with
      | false => rfl
      | true => exact absurd hb hc
    · simp only [findNlMarker, if_neg hc, Option.map_eq_none'] at h
      exact h

/-- If a string contains no `"\n-- "` and already ends with a newline,
appending a tail that starts with `"-- "` places the first `"\n-- "`
occurrence exactly at that final newline. -/
theorem findNl_boundary (Q T : Str) (h : findNlMarker (Q ++ ['\n']) = none)
    (hT : MARKER.isPrefixOf T = true) :
    findNlMarker ((Q ++ ['\n']) ++ T) = some (Q, '\n' :: T) := by
  induction Q with
  | nil =>
    have hcond : NEWLINE_MARKER.isPrefixOf ('\n' :: T) = true := by
      rw [show NEWLINE_MARKER = '\n' :: MARKER from rfl, List.isPrefixOf_cons₂]
      simp [hT]
    simp [findNlMarker, hcond]
  | cons c Q' ih =>
    have hshape : ((c :: Q') ++ ['\n']) ++ T = c :: ((Q' ++ ['\n']) ++ T) := by
      simp
    rw [show (c :: Q') ++ ['\n'] = c :: (Q' ++ ['\n']) from rfl] at h
    obtain ⟨hc1, hc2⟩ := findNl_cons_inv h
    have hcond : NEWLINE_MARKER.isPrefixOf (c :: ((Q' ++ ['\n']) ++ T)) = false := by
      by_contra hcc
      rw [Bool.not_eq_false] at hcc
      rw [show NEWLINE_MARKER = '\n' :: MARKER from rfl, List.isPrefixOf_cons₂] at hcc hc1
      simp only [Bool.and_eq_true, beq_iff_eq] at hcc
      obtain ⟨hceq, hmark⟩ := hcc
      rw [← hceq] at hc1
      simp only [beq_self_eq_true, Bool.true_and] at hc1
      rw [noMarkerPre_app Q' T hc1] at hmark
      simp at hmark
    rw [hshape]
    simp only [findNlMarker, hcond, Bool.false_eq_true, if_false, ih hc2]
    rfl

/-- Appending a newline to a string that does not start with `"-- "`
cannot make `"-- "` a prefix. -/
theorem noMarkerPre_fix {s : Str} (h : MARKER.isPrefixOf s = false) :
    MARKER.isPrefixOf (s ++ ['\n']) = false := by
  match s with
  | [] => rfl
  | [a] => simp [MARKER, List.isPrefixOf]
  | [a, b] => simp [MARKER, List.isPrefixOf]
  | a :: b :: c :: t =>
    by_contra hc
    rw [Bool.not_eq_false] at hc
    have h2 := isPre_of_app hc (by simp [MARKER])
    rw [h] at h2
    simp at h2

/-- Appending a newline to a string containing no `"\n-- "` cannot create
an occurrence of `"\n-- "`. -/
theorem findNl_fix {s : Str} (h : findNlMarker s = none) :
    findNlMarker (s ++ ['\n']) = none := by
  induction s with
  | nil => rfl
  | cons c s' ih =>
    obtain ⟨hc1, hc2⟩ := findNl_cons_inv h
    have hcond : NEWLINE_MARKER.isPrefixOf (c :: (s' ++ ['\n'])) = false := by
      by_contra hcc
      rw [Bool.not_eq_false] at hcc
      rw [show NEWLINE_MARKER = '\n' :: MARKER from rfl, List.isPrefixOf_cons₂] at hcc hc1
      simp only [Bool.and_eq_true, beq_iff_eq] at hcc
      obtain ⟨hceq, hmark⟩ := hcc
      rw [← hceq] at hc1
      simp only [beq_self_eq_true, Bool.true_and] at hc1
      rw [noMarkerPre_fix hc1] at hmark
      simp at hmark
    rw [show (c :: s') ++ ['\n'] = c :: (s' ++ ['\n']) from rfl]
    simp [findNlMarker, hcond, Option.map_eq_none', ih hc2]

/-- A `fix_newline`d segment is empty or ends with a newline. -/
theorem fix_newline_shape (s : Str) :
    fix_newline s = [] ∨ ∃ Q, fix_newline s = Q ++ ['\n'] := by
  unfold fix_newline
  by_cases hcond : (!s.isEmpty && !(s.getLast? == some '\n')) = true
  · rw [if_pos hcond]; right; exact ⟨s, rfl⟩
  · rw [if_neg hcond]
    simp only [Bool.and_eq_true, Bool.not_eq_true', List.isEmpty_eq_false, beq_eq_false_iff_ne,
      not_and_or, not_not] at hcond
    rcases hcond with h1 | h2
    · left; simpa using h1
    · right
      exact List.getLast?_eq_some_iff.mp h2

/-- `fix_newline` is the identity on segments that are empty or already
newline-terminated. -/
theorem fix_newline_of_shape {s : Str} (h : s = [] ∨ ∃ Q, s = Q ++ ['\n']) :
    fix_newline s = s := by
  rcases h with rfl | ⟨Q, rfl⟩
  · rfl
  · rw [fix_newline, List.getLast?_concat]
    simp

/-- The splitter returns the entire input with empty name and remainder
when the input does not start with `"-- "` and contains no `"\n-- "`. -/
theorem split_terminal {P : Str} (h1 : MARKER.isPrefixOf P = false)
    (h2 : findNlMarker P = none) : split_file_markers P = some (P, [], []) := by
  rw [split_file_markers, splitPre, if_neg (by simp [h1]), h2]

/-- The splitter on a normalized segment followed by a rendered delimiter
line and an arbitrary tail returns exactly the segment, the name, and the
tail. -/
theorem split_header {P n : Str} (T : Str)
    (hsh : P = [] ∨ ∃ Q, P = Q ++ ['\n'])
    (h1 : MARKER.isPrefixOf P = false) (h2 : findNlMarker P = none)
    (hn : '\n' ∉ n) :
    split_file_markers (P ++ (fileHeader n ++ T)) = some (P, n, T) := by
  have hA : '\n' ∉ MARKER ++ (n ++ MARKER_END) := by
    intro hm
    rcases List.mem_append.mp hm with hx | hm1
    · exact absurd hx (by decide)
    rcases List.mem_append.mp hm1 with hx | hx
    · exact hn hx
    · exact absurd hx (by decide)
  have hmarkerPre : MARKER.isPrefixOf (fileHeader n ++ T) = true := by
    rw [show fileHeader n ++ T = MARKER ++ ((n ++ (MARKER_END ++ ['\n'])) ++ T) from by
      simp [fileHeader, List.append_assoc]]
    exact isPre_self_app MARKER _
  have hline : fileHeader n ++ T = (MARKER ++ (n ++ MARKER_END)) ++ '\n' :: T := by
    simp [fileHeader, List.append_assoc]
  have hsplitA : splitOnceNL (fileHeader n ++ T) = some (MARKER ++ (n ++ MARKER_END), T) := by
    rw [hline]; exact splitOnceNL_app T hA
  have hfin : ∀ P' : Str, finishMarkerLine P' (MARKER ++ (n ++ MARKER_END)) T = some (P', n, T) := by
    intro P'
    have := finishMarkerLine_header P' T n 0
    simpa using this
  rcases hsh with rfl | ⟨Q, rfl⟩
  · rw [List.nil_append, split_file_markers, splitPre, if_pos hmarkerPre]
    dsimp only
    rw [hsplitA]
    exact hfin []
  · rw [split_file_markers, splitPre,
      if_neg (by rw [noMarkerPre_app Q (fileHeader n ++ T) h1]; simp)]
    rw [findNl_boundary Q _ h2 hmarkerPre]
    dsimp only
    simp only [List.drop_succ_cons, List.drop_zero]
    rw [hsplitA]
    exact hfin (Q ++ ['\n'])

/-- Condition on a raw text segment under which it survives a parse
round-trip: it does not start with `"-- "` and contains no `"\n-- "`
(i.e. no line of it begins with the delimiter opening). -/
def okSeg (s : Str) : Bool := !(MARKER.isPrefixOf s) && (findNlMarker s).isNone

/-- Condition on a file name under which it survives a parse round-trip:
non-empty and newline-free. -/
def okName (n : Str) : Bool := !n.isEmpty && !(n.contains '\n')

/-- The normalized form of an `okSeg` segment does not start with `"-- "`,
contains no `"\n-- "`, and is empty or newline-terminated. -/
theorem okSeg_fix {s : Str} (h : okSeg s = true) :
    MARKER.isPrefixOf (fix_newline s) = false ∧ findNlMarker (fix_newline s) = none ∧
      (fix_newline s = [] ∨ ∃ Q, fix_newline s = Q ++ ['\n']) := by
  rw [okSeg, Bool.and_eq_true, Bool.not_eq_true', Option.isNone_iff_eq_none] at h
  obtain ⟨h1, h2⟩ := h
  refine ⟨?_, ?_, fix_newline_shape s⟩
  · rw [fix_newline]
    split
    · exact noMarkerPre_fix h1
    · exact h1
  · rw [fix_newline]
    split
    · exact findNl_fix h2
    · exact h2

/-- Invariant of a stored `File` that survives a parse round-trip. -/
def fileGood (f : File) : Prop :=
  f.name ≠ [] ∧ '\n' ∉ f.name ∧ MARKER.isPrefixOf f.data = false ∧
    findNlMarker f.data = none ∧ (f.data = [] ∨ ∃ Q, f.data = Q ++ ['\n'])

/-- The builder loop re-parses a normalized data segment followed by the
rendering of a list of good files into exactly those files. -/
theorem buildFiles_render :
    ∀ (fs : List File) (n d : Str), n ≠ [] → '\n' ∉ n →
      MARKER.isPrefixOf d = false → findNlMarker d = none →
      (d = [] ∨ ∃ Q, d = Q ++ ['\n']) →
      (∀ f ∈ fs, fileGood f) →
      buildFiles n (d ++ renderFiles fs) = some (File.mk n d :: fs) := by
  intro fs
  induction fs with
  | nil =>
    intro n d hn hnl hd1 hd2 hd3 _
    rw [buildFiles_eq, if_neg (by simp [hn])]
    rw [show d ++ renderFiles [] = d from by simp [renderFiles]]
    rw [split_terminal hd1 hd2]
    dsimp only
    simp [File.new, fix_newline_of_shape hd3]
  | cons g fs' ih =>
    intro n d hn hnl hd1 hd2 hd3 hall
    obtain ⟨hg1, hg2, hg3, hg4, hg5⟩ := hall g (List.mem_cons_self g fs')
    have hall' : ∀ f ∈ fs', fileGood f := fun f hf => hall f (List.mem_cons_of_mem g hf)
    rw [buildFiles_eq, if_neg (by simp [hn])]
    rw [show renderFiles (g :: fs') = fileHeader g.name ++ (g.data ++ renderFiles fs')
        from rfl]
    rw [split_header (g.data ++ renderFiles fs') hd3 hd1 hd2 hg2]
    dsimp only
    rw [if_neg (by simp [hg1])]
    rw [ih g.name g.data hg1 hg2 hg3 hg4 hg5 hall']
    rw [File.new, fix_newline_of_shape hd3]
    rfl

/-- C5 (amended): for any Archive built from programmatic (comment, files)
input in which the comment and every data segment neither start with
`"-- "` nor contain `"\n-- "`, and every file name is non-empty and
newline-free, serializing reproduces the canonical textual form (comment
then delimiter lines and data), and re-parsing that text yields the same
Archive: the same comment and the same ordered (name, data) list. -/
theorem claim_C5 (c : Str) (entries : List (Str × Str))
    (hc : okSeg c = true)
    (hes : ∀ e ∈ entries, okName e.1 = true ∧ okSeg e.2 = true) :
    (Archive.new c (entries.map fun e => File.new e.1 e.2)).render =
      fix_newline c ++ renderFiles (entries.map fun e => File.new e.1 e.2) ∧
    Archive.fromStr ((Archive.new c (entries.map fun e => File.new e.1 e.2)).render) =
      some (Archive.new c (entries.map fun e => File.new e.1 e.2)) := by
  refine ⟨rfl, ?_⟩
  obtain ⟨hC1, hC2, hC3⟩ := okSeg_fix hc
  have hgood : ∀ f ∈ entries.map (fun e => File.new e.1 e.2), fileGood f := by
    intro f hf
    rw [List.mem_map] at hf
    obtain ⟨e, he, rfl⟩ := hf
    obtain ⟨hn, hs⟩ := hes e he
    rw [okName, Bool.and_eq_true, Bool.not_eq_true', Bool.not_eq_true'] at hn
    obtain ⟨hd1, hd2, hd3⟩ := okSeg_fix hs
    refine ⟨by simpa using hn.1, ?_, hd1, hd2, hd3⟩
    intro hm
    have hcontains := hn.2
    rw [List.contains, List.elem_eq_mem, decide_eq_false_iff_not] at hcontains
    exact hcontains hm
  generalize hE : entries.map (fun e => File.new e.1 e.2) = files at hgood ⊢
  cases files with
  | nil =>
    have hr : (Archive.new c []).render = fix_newline c := by
      simp [Archive.render, Archive.new, renderFiles]
    rw [hr, Archive.fromStr, split_terminal hC1 hC2]
    dsimp only
    rw [show buildFiles [] [] = some [] from rfl]
    dsimp only
    simp [Archive.new, fix_newline_of_shape hC3]
  | cons f fs =>
    obtain ⟨hf1, hf2, hf3, hf4, hf5⟩ := hgood f (List.mem_cons_self f fs)
    have hfs : ∀ g ∈ fs, fileGood g := fun g hg => hgood g (List.mem_cons_of_mem f hg)
    have hr : (Archive.new c (f :: fs)).render =
        fix_newline c ++ (fileHeader f.name ++ (f.data ++ renderFiles fs)) := rfl
    rw [hr, Archive.fromStr, split_header _ hC3 hC1 hC2 hf2]
    dsimp only
    rw [buildFiles_render fs f.name f.data hf1 hf2 hf3 hf4 hf5 hfs]
    dsimp only
    simp [Archive.new, fix_newline_of_shape hC3]

/-- Witness for C5 at a concrete comment and entry list. -/
theorem claim_C5_witness :
    Archive.fromStr ((Archive.new (str "hello") ([(str "a", str "x")].map
        fun e => File.new e.1 e.2)).render) =
      some (Archive.new (str "hello") ([(str "a", str "x")].map
        fun e => File.new e.1 e.2)) := by
  exact (claim_C5 (str "hello") [(str "a", str "x")] (by decide) (by decide)).2

/-- C5 counterexample: as stated, with no restriction on the programmatic
input, the round-trip fails: a comment that itself looks like a delimiter
line is re-parsed as a file. -/
theorem claim_C5_counterexample :
    Archive.fromStr ((Archive.new (str "-- x --") []).render) ≠
      some (Archive.new (str "-- x --") []) := by
  decide

/-- The path component `".."`. -/
def dotdot : Str := ['.', '.']

/-- Splitting a path string at `'/'` separators, keeping empty segments. -/
def splitSlash : Str → List Str
  | [] => [[]]
  | c :: cs =>
    match splitSlash cs with
    | [] => [[]]
    | seg :: segs => if c = '/' then [] :: seg :: segs else (c :: seg) :: segs

/-- The components of a path as the cleaner consumes them: empty segments
(repeated or leading separators) and `"."` segments are dropped, matching
`Path::components` followed by `path_clean`'s skipping of `CurDir`. -/
def pathComps (s : Str) : List Str :=
  (splitSlash s).filter (fun seg => !seg.isEmpty && !(seg == ['.']))

/-- Modelled from the `path_clean` crate (the external dependency providing
`path_clean::clean`, a lexical cleaner in the style of Go's `path.Clean`):
process components left to right keeping an output stack; `".."` pops a
normal component, is dropped at the root of an absolute path, and is kept
at the start of a relative path (after other leading `".."`s). -/
def cleanLoop (ab : Bool) : List Str → List Str → List Str
  | out, [] => out.reverse
  | out, c :: cs =>
    if c = dotdot then
      match out with
      | [] => if ab then cleanLoop ab [] cs else cleanLoop ab [dotdot] cs
      | t :: ts => if t = dotdot then cleanLoop ab (c :: t :: ts) cs else cleanLoop ab ts cs
    else cleanLoop ab (c :: out) cs

/-- Whether a path string is absolute (starts with a separator). -/
def isAbsPath (s : Str) : Bool := s.head? == some '/'

/-- The cleaned form of a path, as an absolute flag and component list. -/
def cleanParts (s : Str) : Bool × List Str :=
  (isAbsPath s, cleanLoop (isAbsPath s) [] (pathComps s))

/-- Joining components with `'/'` separators. -/
def joinSlash : List Str → Str
  | [] => []
  | [c] => c
  | c :: cs => c ++ '/' :: joinSlash cs

/-- Modelled from the `path_clean` crate: the cleaned path string (this is
`name_path.to_string_lossy()` in the source, the string a `DirEscape`
error carries). -/
def path_clean (s : Str) : Str :=
  match cleanParts s with
  | (true, comps) => '/' :: joinSlash comps
  | (false, []) => ['.']
  | (false, comps) => joinSlash comps

/-- The directory-escape test of `Archive::materialize`:
`name_path.starts_with("../") || name_path.is_absolute()` on the cleaned
path.  `Path::starts_with` compares whole components, so on a cleaned path
this holds exactly when the path is absolute or its first component is
`".."`. -/
def escapesRoot (name : Str) : Bool :=
  (cleanParts name).1 || ((cleanParts name).2.head? == some dotdot)

/-- Errors of `Archive::materialize`.  Modelled from the spec: the `error`
module (`MaterializeError`) is declared in `lib.rs` but its file is not
part of the given source; per §7 of the specification the error is either
a directory-escape error carrying the offending cleaned path string, or a
propagated I/O error, of which only the already-exists failure of
create-new mode arises in this model (directory creation and writes to
fresh paths are modelled as always succeeding). -/
inductive MaterializeError where
  | dirEscape : Str → MaterializeError
  | alreadyExists : MaterializeError
deriving DecidableEq, Repr

/-- The filesystem as the materializer observes it: an association list
from joined target path to file content, most recent write first. -/
abbrev FS := List (Str × Str)

/-- Whether a path already exists in the filesystem. -/
def fsHas (fs : FS) (p : Str) : Bool := fs.any (fun e => e.1 == p)

/-- Creating a new file with the given content. -/
def fsWrite (fs : FS) (p d : Str) : FS := (p, d) :: fs

/-- Joining the destination root with a cleaned relative path
(`path.join(rel_path)` in the source). -/
def joinPath (root rel : Str) : Str := root ++ '/' :: rel

/-- Embedding of the loop of `Archive::materialize` over a filesystem
state: for each file in archive order, clean its name, fail with
`DirEscape` (carrying the cleaned path string) if it escapes, create the
target in create-new mode (failing with an already-exists error when the
joined path is present), and write the data.  Returns the filesystem after
the call together with the error, if any; an error stops processing, so
later files are untouched. -/
def materializeFrom (root : Str) : List File → FS → FS × Option MaterializeError
  | [], fs => (fs, none)
  | f :: rest, fs =>
    if escapesRoot f.name then (fs, some (.dirEscape (path_clean f.name)))
    else
      if fsHas fs (joinPath root (path_clean f.name)) then (fs, some .alreadyExists)
      else materializeFrom root rest (fsWrite fs (joinPath root (path_clean f.name)) f.data)

/-- Embedding of `Archive::materialize`, run against a starting filesystem
state. -/
def Archive.materialize (a : Archive) (root : Str) (fs : FS) :
    FS × Option MaterializeError :=
  materializeFrom root a.files fs

/-- The materializer processes a concatenation by processing the first
part and, if it succeeded, continuing with the second from the resulting
filesystem. -/
theorem materializeFrom_append (root : Str) :
    ∀ (xs ys : List File) (fs : FS),
      materializeFrom root (xs ++ ys) fs =
        match materializeFrom root xs fs with
        | (fs1, none) => materializeFrom root ys fs1
        | (fs1, some e) => (fs1, some e) := by
  intro xs
  induction xs with
  | nil => intro ys fs; rfl
  | cons f xs' ih =>
    intro ys fs
    simp only [List.cons_append, materializeFrom]
    by_cases he : escapesRoot f.name = true
    · simp [he]
    · simp only [Bool.not_eq_true] at he
      simp only [he, Bool.false_eq_true, if_false]
      by_cases hh : fsHas fs (joinPath root (path_clean f.name)) = true
      · simp [hh]
      · simp only [Bool.not_eq_true] at hh
        simp only [hh, Bool.false_eq_true, if_false]
        exact ih ys _

/-- Paths present in the filesystem stay present through a materialize
run (files are only created, never removed or truncated). -/
theorem materializeFrom_mono (root : Str) :
    ∀ (l : List File) (fs fs' : FS) (e : Option MaterializeError) (q : Str),
      materializeFrom root l fs = (fs', e) → fsHas fs q = true → fsHas fs' q = true := by
  intro l
  induction l with
  | nil =>
    intro fs fs' e q h hq
    simp only [materializeFrom] at h
    rw [Prod.mk.injEq] at h
    exact h.1 ▸ hq
  | cons f l' ih =>
    intro fs fs' e q h hq
    simp only [materializeFrom] at h
    by_cases he : escapesRoot f.name = true
    · rw [if_pos he, Prod.mk.injEq] at h
      exact h.1 ▸ hq
    · rw [if_neg he] at h
      by_cases hh : fsHas fs (joinPath root (path_clean f.name)) = true
      · rw [if_pos hh, Prod.mk.injEq] at h
        exact h.1 ▸ hq
      · rw [if_neg hh] at h
        refine ih _ _ _ _ h ?_
        simp [fsHas, fsWrite] at hq ⊢
        exact Or.inr hq

/-- C3: the materializer processes files in archive order; once the files
before some file have all been written successfully, a file whose cleaned
name is absolute or still starts with a `".."` component fails the whole
call with a `DirEscape` error carrying the cleaned path string, without
writing that file or any later one.  The spec's three examples clean and
report exactly as claimed. -/
theorem claim_C3 :
    (∀ (root : Str) (fs0 fs1 : FS) (pre : List File) (f : File) (post : List File),
      materializeFrom root pre fs0 = (fs1, none) →
      escapesRoot f.name = true →
      materializeFrom root (pre ++ f :: post) fs0 =
        (fs1, some (.dirEscape (path_clean f.name)))) ∧
    path_clean (str "../bad.txt") = str "../bad.txt" ∧
    escapesRoot (str "../bad.txt") = true ∧
    path_clean (str "/bad.txt") = str "/bad.txt" ∧
    escapesRoot (str "/bad.txt") = true ∧
    path_clean (str "bar/deep/deeper/../../../../escaped.txt") = str "../escaped.txt" ∧
    escapesRoot (str "bar/deep/deeper/../../../../escaped.txt") = true := by
  refine ⟨?_, rfl, rfl, rfl, rfl, rfl, rfl⟩
  intro root fs0 fs1 pre f post hpre hesc
  rw [materializeFrom_append root pre (f :: post) fs0, hpre]
  simp only [materializeFrom, if_pos hesc]

/-- Witness for C3 at a concrete escaping archive. -/
theorem claim_C3_witness :
    materializeFrom (str "dst") [⟨str "../bad.txt", []⟩] [] =
      ([], some (.dirEscape (str "../bad.txt"))) := by
  have h := claim_C3.1 (str "dst") [] [] [] ⟨str "../bad.txt", []⟩ [] rfl (by decide)
  rw [show path_clean (str "../bad.txt") = str "../bad.txt" from claim_C3.2.1] at h
  exact h

/-- C6: materializing writes in create-new (no-clobber) mode: if a first
materialize call of a non-empty archive succeeded, running the same call
again against the resulting filesystem fails with the already-exists I/O
error and returns that filesystem unchanged (nothing the first call wrote
is altered). -/
theorem claim_C6 (a : Archive) (root : Str) (fs0 fs1 : FS) (f : File) (rest : List File)
    (hfiles : a.files = f :: rest)
    (h1 : a.materialize root fs0 = (fs1, none)) :
    a.materialize root fs1 = (fs1, some .alreadyExists) := by
  rw [Archive.materialize, hfiles] at h1 ⊢
  simp only [materializeFrom] at h1 ⊢
  by_cases he : escapesRoot f.name = true
  · rw [if_pos he] at h1
    have := congrArg Prod.snd h1
    simp at this
  · rw [if_neg he] at h1 ⊢
    by_cases hh : fsHas fs0 (joinPath root (path_clean f.name)) = true
    · rw [if_pos hh] at h1
      have := congrArg Prod.snd h1
      simp at this
    · rw [if_neg hh] at h1
      have hw : fsHas (fsWrite fs0 (joinPath root (path_clean f.name)) f.data)
          (joinPath root (path_clean f.name)) = true := by
        simp [fsHas, fsWrite]
      have hp1 : fsHas fs1 (joinPath root (path_clean f.name)) = true :=
        materializeFrom_mono root rest _ _ _ _ h1 hw
      rw [if_pos hp1]

/-- Witness for C6 at a concrete archive and root. -/
theorem claim_C6_witness :
    (Archive.mk [] [⟨str "a.txt", str "x\n"⟩]).materialize (str "dst")
        (((Archive.mk [] [⟨str "a.txt", str "x\n"⟩]).materialize (str "dst") []).1) =
      ((((Archive.mk [] [⟨str "a.txt", str "x\n"⟩]).materialize (str "dst") []).1),
        some .alreadyExists) := by
  exact claim_C6 (Archive.mk [] [⟨str "a.txt", str "x\n"⟩]) (str "dst") []
    (((Archive.mk [] [⟨str "a.txt", str "x\n"⟩]).materialize (str "dst") []).1)
    ⟨str "a.txt", str "x\n"⟩ [] rfl (by decide)

/-- C9: the no-clobber check applies within a single materialize call: two
files of one archive whose cleaned names resolve to the same relative path
make materialization into a fresh empty directory write the first file and
then fail on the second with the already-exists error, leaving the first
file's written content in place. -/
theorem claim_C9 (root : Str) (f g : File)
    (hf : escapesRoot f.name = false) (hg : escapesRoot g.name = false)
    (hsame : path_clean f.name = path_clean g.name) :
    (Archive.mk [] [f, g]).materialize root [] =
      ([(joinPath root (path_clean f.name), f.data)], some .alreadyExists) := by
  rw [Archive.materialize]
  simp only [materializeFrom, hf, Bool.false_eq_true, if_false, hg]
  rw [show fsHas [] (joinPath root (path_clean f.name)) = false from rfl]
  simp only [Bool.false_eq_true, if_false]
  rw [← hsame]
  simp [fsHas, fsWrite]

/-- Witness for C9 at two concrete aliasing names. -/
theorem claim_C9_witness :
    (Archive.mk [] [⟨str "a.txt", str "x\n"⟩, ⟨str "b/../a.txt", str "y\n"⟩]).materialize
        (str "dst") [] =
      ([(joinPath (str "dst") (str "a.txt"), str "x\n")], some .alreadyExists) := by
  have h := claim_C9 (str "dst") ⟨str "a.txt", str "x\n"⟩ ⟨str "b/../a.txt", str "y\n"⟩
    (by decide) (by decide) (by decide)
  rw [show path_clean (str "a.txt") = str "a.txt" from rfl] at h
  exact h

/-- C10: parsing the empty string yields an archive with an empty comment
(not normalized to a bare newline) and no files; serializing that archive
(both through `to_writer` and through `Display`) produces zero bytes; and
materializing it into any directory and filesystem state succeeds without
creating anything. -/
theorem claim_C10 :
    Archive.fromStr [] = some ⟨[], []⟩ ∧
    Archive.writerBytes ⟨[], []⟩ = [] ∧
    Archive.render ⟨[], []⟩ = [] ∧
    ∀ (root : Str) (fs : FS), Archive.materialize ⟨[], []⟩ root fs = (fs, none) := by
  exact ⟨rfl, rfl, rfl, fun root fs => rfl⟩

end Txtar
